import Mathlib

/-!
Shallow embedding of the gallery-rs incremental album upload pipeline
(gallery-core/src/manifest.rs, gallery-core/src/s3.rs,
gallery-cli/src/commands/upload.rs, gallery-cli/src/image_processor.rs).

File bytes are lists of naturals; library boundaries (SHA-256, UUID
generation, the wall clock, JPEG decode/encode, the network outcome of each
S3 request) enter the model as explicit parameters of the pipeline, so every
definition is executable on concrete inputs.
-/

namespace Gallery

/-- Raw file bytes (`Vec<u8>` in the source). -/
abbrev Bytes := List Nat

/-- `ImageInfo` from gallery-core/src/manifest.rs. -/
structure ImageInfo where
  id : String
  original_filename : String
  width : Nat
  height : Nat
  file_hash : String
  thumbnail_path : String
  preview_path : String
  original_path : String
  thumbnail_url : Option String
  preview_url : Option String
  original_url : Option String
deriving DecidableEq, Repr

/-- `AlbumManifest` from gallery-core/src/manifest.rs. -/
structure AlbumManifest where
  id : String
  name : String
  created_at : String
  images : List ImageInfo
deriving DecidableEq, Repr

/-- `AlbumManifest::with_id`: the wall clock (`chrono::Utc::now().to_rfc3339()`)
is passed in as the `now` argument. -/
def AlbumManifest.with_id (name : String) (id : String) (now : String) :
    AlbumManifest :=
  { id := id, name := name, created_at := now, images := [] }

/-- `AlbumManifest::add_image`: pushes onto the `images` vector. -/
def AlbumManifest.add_image (m : AlbumManifest) (info : ImageInfo) :
    AlbumManifest :=
  { m with images := m.images ++ [info] }

/-- `ImageInfo::new` from gallery-core/src/manifest.rs: the album id argument
is ignored (paths embedded in the manifest are store-relative). -/
def ImageInfo.new (original_filename : String) (width height : Nat)
    (file_hash : String) (_album_id : String) (image_id : String) : ImageInfo :=
  { id := image_id
    original_filename := original_filename
    width := width
    height := height
    file_hash := file_hash
    thumbnail_path := "thumbnails/" ++ image_id ++ ".jpg"
    preview_path := "previews/" ++ image_id ++ ".jpg"
    original_path := "originals/" ++ image_id ++ ".jpg"
    thumbnail_url := none
    preview_url := none
    original_url := none }

/-! ### Manifest serialization

`AlbumManifest::to_json` / `from_json` delegate string rendering and parsing
to the serde_json library; the model works at the level of the JSON document
tree the library produces and consumes.  The serde derive on the two structs
determines the tree: every plain field is emitted under its own name, the
three `Option<String>` URL fields carry `skip_serializing_if = "Option::is_none"`
(absent when `None`), and on deserialization a missing `Option` field reads
back as `None` while a missing required field is an error. -/

/-- Modelled from the spec: the JSON document tree of the manifest wire
contract (serde_json is an external library; objects are key/value lists,
strings, naturals and arrays — the manifest format uses nothing else). -/
inductive Json where
  | str (s : String) : Json
  | num (n : Nat) : Json
  | arr (elems : List Json) : Json
  | obj (fields : List (String × Json)) : Json

def Json.getField : Json → String → Option Json
  | .obj fields, key => fields.lookup key
  | _, _ => none

def Json.asStr : Json → Option String
  | .str s => some s
  | _ => none

def Json.asNum : Json → Option Nat
  | .num n => some n
  | _ => none

def Json.asArr : Json → Option (List Json)
  | .arr elems => some elems
  | _ => none

/-- An optional string field under serde: absent means `None`, present must
be a string. -/
def Json.optStrField (j : Json) (key : String) : Option (Option String) :=
  match j.getField key with
  | none => some none
  | some v => (v.asStr).map some

/-- Serde serialization of one `ImageInfo`: plain fields in declaration
order, `None` URL fields skipped. -/
def ImageInfo.to_json (i : ImageInfo) : Json :=
  .obj ([("id", Json.str i.id),
      ("original_filename", Json.str i.original_filename),
      ("width", Json.num i.width),
      ("height", Json.num i.height),
      ("file_hash", Json.str i.file_hash),
      ("thumbnail_path", Json.str i.thumbnail_path),
      ("preview_path", Json.str i.preview_path),
      ("original_path", Json.str i.original_path)]
    ++ (match i.thumbnail_url with
        | some u => [("thumbnail_url", Json.str u)]
        | none => [])
    ++ (match i.preview_url with
        | some u => [("preview_url", Json.str u)]
        | none => [])
    ++ (match i.original_url with
        | some u => [("original_url", Json.str u)]
        | none => []))

/-- Serde deserialization of one `ImageInfo`. -/
def ImageInfo.from_json (j : Json) : Option ImageInfo := do
  let id ← (j.getField "id").bind Json.asStr
  let original_filename ← (j.getField "original_filename").bind Json.asStr
  let width ← (j.getField "width").bind Json.asNum
  let height ← (j.getField "height").bind Json.asNum
  let file_hash ← (j.getField "file_hash").bind Json.asStr
  let thumbnail_path ← (j.getField "thumbnail_path").bind Json.asStr
  let preview_path ← (j.getField "preview_path").bind Json.asStr
  let original_path ← (j.getField "original_path").bind Json.asStr
  let thumbnail_url ← j.optStrField "thumbnail_url"
  let preview_url ← j.optStrField "preview_url"
  let original_url ← j.optStrField "original_url"
  pure { id := id
         original_filename := original_filename
         width := width
         height := height
         file_hash := file_hash
         thumbnail_path := thumbnail_path
         preview_path := preview_path
         original_path := original_path
         thumbnail_url := thumbnail_url
         preview_url := preview_url
         original_url := original_url }

/-- `AlbumManifest::to_json` (at the document-tree level). -/
def AlbumManifest.to_json (m : AlbumManifest) : Json :=
  .obj [("id", Json.str m.id),
    ("name", Json.str m.name),
    ("created_at", Json.str m.created_at),
    ("images", Json.arr (m.images.map ImageInfo.to_json))]

/-- Serde deserialization of the `images` array: element by element,
failing on the first element that fails. -/
def parse_images : List Json → Option (List ImageInfo)
  | [] => some []
  | j :: js => do
    let i ← ImageInfo.from_json j
    let rest ← parse_images js
    pure (i :: rest)

/-- `AlbumManifest::from_json` (at the document-tree level); `none` is the
`CorruptManifest` outcome. -/
def AlbumManifest.from_json (j : Json) : Option AlbumManifest := do
  let id ← (j.getField "id").bind Json.asStr
  let name ← (j.getField "name").bind Json.asStr
  let created_at ← (j.getField "created_at").bind Json.asStr
  let imagesJson ← (j.getField "images").bind Json.asArr
  let images ← parse_images imagesJson
  pure { id := id, name := name, created_at := created_at, images := images }

/-! ### Path names and extensions (gallery-cli/src/image_processor.rs) -/

/-- `Path::file_name` as used by the pipeline: the component after the last
path separator. -/
def file_name (p : String) : String :=
  ⟨(p.data.reverse.takeWhile (fun c => c ≠ '/')).reverse⟩

/-- `Path::extension`: the portion of the file name after the last dot;
none when the name has no dot, or when its only dot is the leading one of a
hidden file. -/
def path_extension (p : String) : Option String :=
  match (file_name p).data with
  | [] => none
  | _ :: rest =>
    if rest.contains '.' then
      some ⟨(rest.reverse.takeWhile (fun c => c ≠ '.')).reverse⟩
    else none

def str_to_lower (s : String) : String :=
  ⟨s.data.map Char.toLower⟩

/-- `is_jpeg_file`: extension, lower-cased, is `jpg` or `jpeg`. -/
def is_jpeg_file (p : String) : Bool :=
  match path_extension p with
  | some ext => str_to_lower ext = "jpg" ∨ str_to_lower ext = "jpeg"
  | none => false

/-- `is_image_file` delegates to `is_jpeg_file`. -/
def is_image_file (p : String) : Bool :=
  is_jpeg_file p

/-! ### Image transform (gallery-cli/src/image_processor.rs) -/

/-- `THUMBNAIL_SIZE` constant. -/
def THUMBNAIL_SIZE : Nat := 400

/-- `PREVIEW_SIZE` constant. -/
def PREVIEW_SIZE : Nat := 2048

/-- Modelled from the spec: the image library's aspect-ratio-preserving fit
used by `DynamicImage::resize` (an external library): both dimensions are
scaled by the common factor `min (bound / width) (bound / height)`, each
result rounded to the nearest integer and clamped below at 1.  Arithmetic is
exact rational in the model. -/
def resize_dims (width height bound : Nat) : Nat × Nat :=
  let scale : ℚ := min ((bound : ℚ) / (width : ℚ)) ((bound : ℚ) / (height : ℚ))
  (max 1 (round ((width : ℚ) * scale)).toNat,
   max 1 (round ((height : ℚ) * scale)).toNat)

/-- The dimension policy of `create_resized_jpeg`: resize only when either
side exceeds `max_size`, otherwise keep the source dimensions. -/
def create_resized_dims (width height max_size : Nat) : Nat × Nat :=
  if width > max_size ∨ height > max_size then
    resize_dims width height max_size
  else
    (width, height)

/-- Processing errors surfaced by `process_image`. -/
inductive PError where
  | unsupportedFormat (path : String)
  | decodeFailure (path : String)
deriving DecidableEq, Repr

/-- `ProcessedImage` from gallery-cli/src/image_processor.rs. -/
structure ProcessedImage where
  original : Bytes
  preview : Bytes
  thumbnail : Bytes
  width : Nat
  height : Nat
deriving DecidableEq, Repr

/-- A candidate source file: its path and its raw bytes. -/
structure FileEntry where
  path : String
  bytes : Bytes
deriving DecidableEq, Repr

/-- `process_image`: rejects non-JPEG extensions, decodes (the decoder is the
external image library, passed in as `decode`, returning the pixel
dimensions), keeps the raw source bytes as the original rendition, and
encodes the preview and thumbnail renditions at the dimensions chosen by
`create_resized_jpeg` (the encoder is the external library, passed in as
`encode`). -/
def process_image (decode : Bytes → Option (Nat × Nat))
    (encode : Nat × Nat → Bytes) (f : FileEntry) :
    Except PError ProcessedImage :=
  if ¬ is_jpeg_file f.path then
    .error (.unsupportedFormat f.path)
  else
    match decode f.bytes with
    | none => .error (.decodeFailure f.path)
    | some (width, height) =>
      .ok { original := f.bytes
            preview := encode (create_resized_dims width height PREVIEW_SIZE)
            thumbnail := encode (create_resized_dims width height THUMBNAIL_SIZE)
            width := width
            height := height }

/-! ### Fingerprinting and path collection
(gallery-cli/src/commands/upload.rs) -/

/-- `compute_album_id`: SHA-256 (the external sha2 library, abstracted as
`sha256hex`, mapping the hashed text to its lowercase hex digest) over the
concatenation of each path string followed by a newline separator, truncated
to the first 16 hex characters. -/
def compute_album_id (sha256hex : String → String)
    (image_paths : List String) : String :=
  (sha256hex (String.join (image_paths.map (fun p => p ++ "\n")))).take 16

/-- `hash_file`: SHA-256 hex digest of the file's raw bytes (the digest
function is the external sha2 library, abstracted as `sha256hex`). -/
def hash_file (sha256hex : Bytes → String) (bytes : Bytes) : String :=
  sha256hex bytes

/-- A node of the model filesystem: a plain file, or a directory whose
recursive walk yields the given file paths in walk order. -/
inductive FsNode where
  | file : FsNode
  | dir (walk : List String) : FsNode
deriving DecidableEq, Repr

/-- The model filesystem: an association from path to node. -/
abbrev Fs := List (String × FsNode)

/-- Errors of `collect_image_paths`. -/
inductive CollectError where
  | pathNotFound (p : String)
deriving DecidableEq, Repr

/-- One iteration of the collection loop: a missing path aborts, a plain
file is kept only when `is_image_file` accepts it, a directory contributes
the files of its walk that `is_image_file` accepts. -/
def collect_from (fs : Fs) (p : String) : Except CollectError (List String) :=
  match fs.lookup p with
  | none => .error (.pathNotFound p)
  | some .file => .ok (if is_image_file p then [p] else [])
  | some (.dir walk) => .ok (walk.filter (fun q => is_image_file q))

/-- Lexicographic comparison of character sequences, the order
`PathBuf::cmp` sorts by (UTF-8 byte order coincides with code-point
order). -/
def chars_le : List Char → List Char → Bool
  | [], _ => true
  | _ :: _, [] => false
  | a :: as, b :: bs =>
    if a < b then true else if b < a then false else chars_le as bs

/-- The path order used by the final `image_paths.sort()`. -/
def str_le (a b : String) : Bool :=
  chars_le a.data b.data

theorem chars_le_total : ∀ as bs, chars_le as bs = true ∨ chars_le bs as = true := by
  intro as
  induction as with
  | nil => intro bs; exact .inl rfl
  | cons a as ih =>
    intro bs
    cases bs with
    | nil => exact .inr rfl
    | cons b bs =>
      by_cases hab : a < b
      · left; simp [chars_le, hab]
      · by_cases hba : b < a
        · right; simp [chars_le, hba, asymm hba]
        · rcases ih bs with h | h
          · left; simp [chars_le, hab, hba, h]
          · right; simp [chars_le, hab, hba, h]

theorem chars_le_trans : ∀ as bs cs, chars_le as bs = true →
    chars_le bs cs = true → chars_le as cs = true := by
  intro as
  induction as with
  | nil => intro bs cs _ _; rfl
  | cons a as ih =>
    intro bs cs h1 h2
    cases bs with
    | nil => exact absurd h1 (by simp [chars_le])
    | cons b bs =>
      cases cs with
      | nil => exact absurd h2 (by simp [chars_le])
      | cons c cs =>
        simp only [chars_le] at h1 h2 ⊢
        by_cases hab : a < b <;> by_cases hbc : b < c
        · rw [if_pos (lt_trans hab hbc)]
        · have hcb : ¬ c < b := by
            intro hcb
            rw [if_neg hbc, if_pos hcb] at h2
            exact Bool.noConfusion h2
          have hbceq : b = c := le_antisymm (not_lt.1 hcb) (not_lt.1 hbc)
          rw [if_pos (hbceq ▸ hab)]
        · have hba : ¬ b < a := by
            intro hba
            rw [if_neg hab, if_pos hba] at h1
            exact Bool.noConfusion h1
          have habeq : a = b := le_antisymm (not_lt.1 hba) (not_lt.1 hab)
          rw [if_pos (habeq ▸ hbc)]
        · have hba : ¬ b < a := by
            intro hba
            rw [if_neg hab, if_pos hba] at h1
            exact Bool.noConfusion h1
          have hcb : ¬ c < b := by
            intro hcb
            rw [if_neg hbc, if_pos hcb] at h2
            exact Bool.noConfusion h2
          rw [if_neg hab, if_neg hba] at h1
          rw [if_neg hbc, if_neg hcb] at h2
          have habeq : a = b := le_antisymm (not_lt.1 hba) (not_lt.1 hab)
          have hbceq : b = c := le_antisymm (not_lt.1 hcb) (not_lt.1 hbc)
          have hac : ¬ a < c := by rw [habeq, hbceq]; exact lt_irrefl c
          have hca : ¬ c < a := by rw [habeq, hbceq]; exact lt_irrefl c
          rw [if_neg hac, if_neg hca]
          exact ih bs cs h1 h2

theorem chars_le_antisymm : ∀ as bs, chars_le as bs = true →
    chars_le bs as = true → as = bs := by
  intro as
  induction as with
  | nil =>
    intro bs _ h2
    cases bs with
    | nil => rfl
    | cons b bs => exact absurd h2 (by simp [chars_le])
  | cons a as ih =>
    intro bs h1 h2
    cases bs with
    | nil => exact absurd h1 (by simp [chars_le])
    | cons b bs =>
      simp only [chars_le] at h1 h2
      by_cases hab : a < b
      · rw [if_neg (asymm hab), if_pos hab] at h2
        exact Bool.noConfusion h2
      · by_cases hba : b < a
        · rw [if_neg hab, if_pos hba] at h1
          exact Bool.noConfusion h1
        · have habeq : a = b := le_antisymm (not_lt.1 hba) (not_lt.1 hab)
          rw [if_neg hab, if_neg hba] at h1
          rw [if_neg hba, if_neg hab] at h2
          rw [habeq, ih bs h1 h2]

/-- The path order as a proposition. -/
def path_le (a b : String) : Prop := str_le a b = true

instance path_le_decidable : DecidableRel path_le := by
  intro a b
  unfold path_le
  infer_instance

instance path_le_total : IsTotal String path_le :=
  ⟨fun a b => chars_le_total a.data b.data⟩

instance path_le_trans : IsTrans String path_le :=
  ⟨fun a b c => chars_le_trans a.data b.data c.data⟩

instance path_le_antisymm : IsAntisymm String path_le :=
  ⟨fun a b h1 h2 => by
    have := chars_le_antisymm a.data b.data h1 h2
    cases a
    cases b
    exact congrArg String.mk this⟩

/-- The path sort used by the final `image_paths.sort()`. -/
def sort_paths (paths : List String) : List String :=
  paths.insertionSort path_le

/-- The collection loop over the supplied paths, in order, fail-fast. -/
def collect_chunks (fs : Fs) : List String → Except CollectError (List (List String))
  | [] => .ok []
  | p :: ps =>
    match collect_from fs p with
    | .error e => .error e
    | .ok chunk =>
      match collect_chunks fs ps with
      | .error e => .error e
      | .ok rest => .ok (chunk :: rest)

/-- `collect_image_paths`: gather candidates from every supplied path, then
sort for consistent ordering. -/
def collect_image_paths (fs : Fs) (paths : List String) :
    Except CollectError (List String) :=
  match collect_chunks fs paths with
  | .error e => .error e
  | .ok chunks => .ok (sort_paths chunks.flatten)

/-! ### The upload pipeline (gallery-cli/src/commands/upload.rs `execute`) -/

/-- The library boundaries of one upload run, passed in explicitly:
`fileHash` is the sha2 SHA-256 hex digest of file bytes, `freshId` is the
`Uuid::new_v4()` drawn for the candidate at a given position, `now` is
`chrono::Utc::now().to_rfc3339()`, and `decode`/`encode` are the image
library's JPEG codec. -/
structure PipelineEnv where
  fileHash : Bytes → String
  freshId : Nat → String
  now : String
  decode : Bytes → Option (Nat × Nat)
  encode : Nat × Nat → Bytes

/-- One slot of the `existing_images` hash map. -/
abbrev ReuseIndex := List (String × ImageInfo)

/-- `HashMap` insertion: any slot under the same key is replaced. -/
def index_insert (m : ReuseIndex) (key : String) (v : ImageInfo) : ReuseIndex :=
  (m.filter (fun kv => kv.1 ≠ key)) ++ [(key, v)]

/-- `HashMap::get`: the value stored under a key, if any. -/
def index_lookup : ReuseIndex → String → Option ImageInfo
  | [], _ => none
  | (k, v) :: rest, key => if k = key then some v else index_lookup rest key

/-- `existing_images`: the map from each manifest entry's `file_hash` to the
entry, built by inserting the entries in order (later entries win a key). -/
def build_index (images : List ImageInfo) : ReuseIndex :=
  images.foldl (fun m img => index_insert m img.file_hash img) []

/-- The images of an optional prior manifest (`unwrap_or_default`). -/
def prior_images : Option AlbumManifest → List ImageInfo
  | some m => m.images
  | none => []

/-- `ProcessResult` from `execute`. -/
inductive ProcessResult where
  | existing (info : ImageInfo)
  | new (image_id filename file_hash : String) (processed : ProcessedImage)
deriving DecidableEq, Repr

/-- The per-file body of the rayon `par_iter().map(...)`: hash the bytes,
consult the reuse index, and only on a miss draw a fresh id and transform. -/
def process_one (env : PipelineEnv) (index : ReuseIndex) (i : Nat)
    (f : FileEntry) : Except PError ProcessResult :=
  let filename := file_name f.path
  let file_hash := env.fileHash f.bytes
  match index_lookup index file_hash with
  | some info => .ok (.existing info)
  | none =>
    let image_id := env.freshId i
    match process_image env.decode env.encode f with
    | .error e => .error e
    | .ok processed => .ok (.new image_id filename file_hash processed)

/-- The whole processing stage (`collect::<Result<Vec<_>>>()`): results in
candidate order, first error aborts; the candidate at position `i` draws the
id `env.freshId i`. -/
def process_all (env : PipelineEnv) (index : ReuseIndex) :
    Nat → List FileEntry → Except PError (List ProcessResult)
  | _, [] => .ok []
  | i, f :: fs =>
    match process_one env index i f with
    | .error e => .error e
    | .ok r =>
      match process_all env index (i + 1) fs with
      | .error e => .error e
      | .ok rs => .ok (r :: rs)

/-- The separation loop: reused images and new images, each in encounter
order. -/
def split_results : List ProcessResult →
    List ImageInfo × List (String × String × String × ProcessedImage)
  | [] => ([], [])
  | r :: rs =>
    let (reused, fresh) := split_results rs
    match r with
    | .existing info => (info :: reused, fresh)
    | .new image_id filename file_hash processed =>
      (reused, (image_id, filename, file_hash, processed) :: fresh)

/-- The pure content of `upload_image_to_s3` once its three puts succeed:
the `ImageInfo` constructed for the uploaded image. -/
def upload_image_to_s3 (album_id image_id filename file_hash : String)
    (processed : ProcessedImage) : ImageInfo :=
  ImageInfo.new filename processed.width processed.height file_hash
    album_id image_id

/-- The outcomes of the spawned upload tasks, in spawn order: the task for
the `j`-th new image fails with `uploadFail j` when that is set, and
otherwise yields its `ImageInfo`. -/
def upload_results (uploadFail : Nat → Option String) (album_id : String) :
    Nat → List (String × String × String × ProcessedImage) →
    List (Except String ImageInfo)
  | _, [] => []
  | j, (image_id, filename, file_hash, processed) :: rest =>
    (match uploadFail j with
     | some e => Except.error e
     | none =>
       Except.ok (upload_image_to_s3 album_id image_id filename file_hash
         processed))
    :: upload_results uploadFail album_id (j + 1) rest

/-- The collection loop over the spawned tasks
(`for task in upload_tasks { uploaded_images.push(task.await??); }`):
tasks are awaited in spawn order and the loop returns at the first failed
await. -/
def await_all {ε α : Type} : List (Except ε α) → Except ε (List α)
  | [] => .ok []
  | t :: ts =>
    match t with
    | .error e => .error e
    | .ok a =>
      match await_all ts with
      | .error e => .error e
      | .ok rest => .ok (a :: rest)

/-- How many of the spawned tasks the collection loop actually awaits. -/
def awaited_count {ε α : Type} : List (Except ε α) → Nat
  | [] => 0
  | t :: ts =>
    match t with
    | .error _ => 1
    | .ok _ => 1 + awaited_count ts

/-- Errors of a whole upload run. -/
inductive RunError where
  | storeError (e : String)
  | corruptManifest
  | processError (e : PError)
  | uploadError (e : String)
deriving DecidableEq, Repr

/-- The core of `execute` after the existing-album lookup: build the reuse
index, run the processing stage, separate reused from new, run the upload
stage, and assemble the manifest that the terminal `upload_bytes` publishes
(`with_id` stamps the run's clock, then every image is appended). -/
def run_upload_core (env : PipelineEnv) (uploadFail : Nat → Option String)
    (prior : Option AlbumManifest) (name album_id : String)
    (files : List FileEntry) : Except RunError AlbumManifest :=
  let existing_images := build_index (prior_images prior)
  match process_all env existing_images 0 files with
  | .error e => .error (.processError e)
  | .ok process_results =>
    let (reused_images, new_images) := split_results process_results
    match await_all (upload_results uploadFail album_id 0 new_images) with
    | .error e => .error (.uploadError e)
    | .ok uploaded_images =>
      .ok ((reused_images ++ uploaded_images).foldl AlbumManifest.add_image
        (AlbumManifest.with_id name album_id env.now))

/-! ### Existing-album lookup (gallery-core/src/s3.rs, upload.rs) -/

/-- `S3Client::object_exists`: the outcome of the underlying `head_object`
request is passed in; any failure is mapped to `Ok(false)`. -/
def object_exists {ε : Type} (head_result : Except ε Unit) : Except ε Bool :=
  match head_result with
  | .ok _ => .ok true
  | .error _ => .ok false

/-- The existing-manifest branch of `execute`: when `object_exists` reports
the manifest key present, download it (outcome passed in as `fetch`, already
at the JSON document level) and parse it — a parse failure is the fatal
`CorruptManifest`; when absent, proceed with no prior manifest. -/
def lookup_existing_manifest (head : Except String Unit)
    (fetch : Except String Json) : Except RunError (Option AlbumManifest) :=
  match object_exists head with
  | .error e => .error (.storeError e)
  | .ok true =>
    match fetch with
    | .error e => .error (.storeError e)
    | .ok j =>
      match AlbumManifest.from_json j with
      | none => .error .corruptManifest
      | some m => .ok (some m)
  | .ok false => .ok none

/-- `execute` from the existing-album check onwards: lookup, then the core
run. -/
def upload_execute (env : PipelineEnv) (uploadFail : Nat → Option String)
    (head : Except String Unit) (fetch : Except String Json)
    (name album_id : String) (files : List FileEntry) :
    Except RunError AlbumManifest :=
  match lookup_existing_manifest head fetch with
  | .error e => .error e
  | .ok prior => run_upload_core env uploadFail prior name album_id files

/-! ### Concrete instances used by witnesses and counterexamples -/

/-- A concrete, fully computable run environment. -/
def env_c : PipelineEnv :=
  { fileHash := fun b => toString b
    freshId := fun i => String.mk (List.replicate (i + 1) 'u')
    now := "2025-06-01T00:00:00+00:00"
    decode := fun _ => some (2, 3)
    encode := fun _ => [7] }

/-- No upload task fails. -/
def no_fail : Nat → Option String := fun _ => none

/-- A prior-manifest entry whose `file_hash` is `env_c.fileHash [1]`. -/
def info_reused : ImageInfo :=
  { id := "old-id"
    original_filename := "a.jpg"
    width := 2
    height := 3
    file_hash := "[1]"
    thumbnail_path := "thumbnails/old-id.jpg"
    preview_path := "previews/old-id.jpg"
    original_path := "originals/old-id.jpg"
    thumbnail_url := none
    preview_url := none
    original_url := none }

/-! ### General lemmas about the pipeline -/

theorem foldl_add_image_images (l : List ImageInfo) (b : AlbumManifest) :
    (l.foldl AlbumManifest.add_image b).images = b.images ++ l := by
  induction l generalizing b with
  | nil => simp
  | cons x xs ih =>
    simp [List.foldl_cons, ih, AlbumManifest.add_image, List.append_assoc]

theorem foldl_add_image_fields (l : List ImageInfo) (b : AlbumManifest) :
    (l.foldl AlbumManifest.add_image b).created_at = b.created_at ∧
    (l.foldl AlbumManifest.add_image b).id = b.id ∧
    (l.foldl AlbumManifest.add_image b).name = b.name := by
  induction l generalizing b with
  | nil => exact ⟨rfl, rfl, rfl⟩
  | cons x xs ih => simpa [List.foldl_cons, AlbumManifest.add_image] using ih _

/-- Inversion of a successful run: the stages it went through and the shape
of the manifest it publishes. -/
theorem run_upload_core_ok (env : PipelineEnv) (uploadFail : Nat → Option String)
    (prior : Option AlbumManifest) (name album_id : String)
    (files : List FileEntry) (m : AlbumManifest)
    (h : run_upload_core env uploadFail prior name album_id files = .ok m) :
    ∃ results uploaded,
      process_all env (build_index (prior_images prior)) 0 files = .ok results ∧
      await_all
        (upload_results uploadFail album_id 0 (split_results results).2) =
        .ok uploaded ∧
      m.images = (split_results results).1 ++ uploaded ∧
      m.created_at = env.now := by
  simp only [run_upload_core] at h
  rcases hp : process_all env (build_index (prior_images prior)) 0 files with
    e | results
  · simp only [hp] at h
    exact Except.noConfusion h
  · simp only [hp] at h
    rcases hsp : split_results results with ⟨reused, fresh⟩
    rw [hsp] at h
    rcases hu : await_all (upload_results uploadFail album_id 0 fresh) with
      e | uploaded
    · simp only [hu] at h
      exact Except.noConfusion h
    · simp only [hu] at h
      refine ⟨results, uploaded, rfl, ?_, ?_, ?_⟩
      · rw [hsp]; exact hu
      · have := congrArg AlbumManifest.images (Except.ok.inj h)
        rw [← this, foldl_add_image_images, hsp]
        rfl
      · have := congrArg AlbumManifest.created_at (Except.ok.inj h)
        rw [← this, (foldl_add_image_fields _ _).1]
        rfl

/-! ### C1: the `created_at` of a resumed album -/

/-- A prior manifest with an earlier creation timestamp, containing the
entry `info_reused`. -/
def prior_manifest_c : AlbumManifest :=
  { id := "aid"
    name := "n"
    created_at := "2024-01-01T00:00:00+00:00"
    images := [info_reused] }

/-- C1 counterexample: resuming the album whose stored manifest was created
at `2024-01-01` publishes a manifest whose `created_at` is the resuming
run's own clock, not the stored one — `with_id` stamps `Utc::now()`
unconditionally. -/
theorem created_at_not_preserved_on_resume :
    (run_upload_core env_c no_fail (some prior_manifest_c) "n" "aid"
        [{ path := "d/a.jpg", bytes := [1] }]).map AlbumManifest.created_at =
      Except.ok "2025-06-01T00:00:00+00:00" ∧
    prior_manifest_c.created_at = "2024-01-01T00:00:00+00:00" ∧
    ("2025-06-01T00:00:00+00:00" : String) ≠ "2024-01-01T00:00:00+00:00" := by
  refine ⟨rfl, rfl, by decide⟩

/-- C1 amended: the `created_at` of the manifest published by a successful
run always equals the run's own clock (`chrono::Utc::now()` at manifest
assembly), whatever prior manifest was found. -/
theorem published_created_at_is_run_clock (env : PipelineEnv)
    (uploadFail : Nat → Option String) (prior : Option AlbumManifest)
    (name album_id : String) (files : List FileEntry) (m : AlbumManifest)
    (h : run_upload_core env uploadFail prior name album_id files = .ok m) :
    m.created_at = env.now := by
  obtain ⟨_, _, _, _, _, hca⟩ :=
    run_upload_core_ok env uploadFail prior name album_id files m h
  exact hca

/-- C1 amended, witness at a concrete run. -/
theorem published_created_at_is_run_clock_witness :
    run_upload_core env_c no_fail (some prior_manifest_c) "n" "aid"
        [{ path := "d/a.jpg", bytes := [1] }] =
      .ok { id := "aid", name := "n",
            created_at := "2025-06-01T00:00:00+00:00",
            images := [info_reused] } ∧
    (AlbumManifest.mk "aid" "n" "2025-06-01T00:00:00+00:00"
        [info_reused]).created_at = env_c.now :=
  ⟨rfl, published_created_at_is_run_clock env_c no_fail (some prior_manifest_c)
    "n" "aid" [{ path := "d/a.jpg", bytes := [1] }] _ rfl⟩

/-! ### C2: failure handling in the concurrent upload stage -/

/-- A processed image used in concrete upload-stage runs. -/
def processed_c : ProcessedImage :=
  { original := [1], preview := [7], thumbnail := [7], width := 2, height := 3 }

/-- Three new images entering the upload stage. -/
def new_images_c : List (String × String × String × ProcessedImage) :=
  [("u0", "a.jpg", "h0", processed_c),
   ("u1", "b.jpg", "h1", processed_c),
   ("u2", "c.jpg", "h2", processed_c)]

/-- The second spawned upload task fails. -/
def fail_second : Nat → Option String := fun j => if j = 1 then some "boom" else none

/-- C2 counterexample: with three spawned upload tasks whose second fails,
the collection loop surfaces the error after awaiting only two of the three
tasks — it does not wait for every in-flight task before returning. -/
theorem upload_error_returned_with_tasks_unawaited :
    await_all (upload_results fail_second "aid" 0 new_images_c) =
      Except.error "boom" ∧
    awaited_count (upload_results fail_second "aid" 0 new_images_c) = 2 ∧
    (upload_results fail_second "aid" 0 new_images_c).length = 3 ∧
    awaited_count (upload_results fail_second "aid" 0 new_images_c) ≠
      (upload_results fail_second "aid" 0 new_images_c).length :=
  ⟨rfl, rfl, rfl, by decide⟩

theorem await_all_first_error {ε α : Type} (l : List (Except ε α)) (i : Nat)
    (e : ε) (hi : l[i]? = some (.error e))
    (hok : ∀ j, j < i → ∃ a, l[j]? = some (.ok a)) :
    await_all l = .error e ∧ awaited_count l = i + 1 := by
  induction l generalizing i with
  | nil => simp at hi
  | cons t ts ih =>
    cases i with
    | zero =>
      simp only [List.getElem?_cons_zero, Option.some.injEq] at hi
      subst hi
      exact ⟨rfl, rfl⟩
    | succ n =>
      obtain ⟨a, ha⟩ := hok 0 (Nat.succ_pos n)
      simp only [List.getElem?_cons_zero, Option.some.injEq] at ha
      subst ha
      simp only [List.getElem?_cons_succ] at hi
      have hok' : ∀ j, j < n → ∃ b, ts[j]? = some (.ok b) := by
        intro j hj
        have := hok (j + 1) (Nat.succ_lt_succ hj)
        simpa using this
      obtain ⟨h1, h2⟩ := ih n hi hok'
      refine ⟨?_, ?_⟩
      · simp only [await_all, h1]
      · simp only [awaited_count, h2]
        omega

theorem upload_results_length (uploadFail : Nat → Option String)
    (album_id : String) (j : Nat)
    (new_images : List (String × String × String × ProcessedImage)) :
    (upload_results uploadFail album_id j new_images).length =
      new_images.length := by
  induction new_images generalizing j with
  | nil => rfl
  | cons x xs ih => simp only [upload_results, List.length_cons, ih]

/-- C2 amended: when the upload task at spawn position `i` is the first to
fail, the collection loop surfaces exactly that error after awaiting only
the tasks up to and including position `i`; tasks spawned later are left
unawaited (the tokio tasks themselves keep running detached, but the stage
does not wait for them before returning the error). -/
theorem upload_stage_returns_after_first_error
    (uploadFail : Nat → Option String) (album_id : String)
    (new_images : List (String × String × String × ProcessedImage))
    (i : Nat) (e : String)
    (hi : (upload_results uploadFail album_id 0 new_images)[i]? =
      some (.error e))
    (hok : ∀ j, j < i → ∃ a,
      (upload_results uploadFail album_id 0 new_images)[j]? =
        some (.ok a)) :
    await_all (upload_results uploadFail album_id 0 new_images) =
      Except.error e ∧
    awaited_count (upload_results uploadFail album_id 0 new_images) = i + 1 ∧
    i + 1 ≤ new_images.length := by
  obtain ⟨h1, h2⟩ := await_all_first_error _ i e hi hok
  refine ⟨h1, h2, ?_⟩
  have hlen : i < (upload_results uploadFail album_id 0 new_images).length := by
    by_contra hcon
    rw [List.getElem?_eq_none (Nat.le_of_not_lt hcon)] at hi
    exact Option.noConfusion hi
  rw [upload_results_length] at hlen
  omega

/-- C2 amended, witness: the concrete three-task run with the second task
failing. -/
theorem upload_stage_returns_after_first_error_witness :
    ((upload_results fail_second "aid" 0 new_images_c)[1]? =
      some (.error "boom")) ∧
    (∀ j, j < 1 → ∃ a,
      (upload_results fail_second "aid" 0 new_images_c)[j]? =
        some (.ok a)) ∧
    (await_all (upload_results fail_second "aid" 0 new_images_c) =
      Except.error "boom" ∧
    awaited_count (upload_results fail_second "aid" 0 new_images_c) = 1 + 1 ∧
    1 + 1 ≤ new_images_c.length) := by
  refine ⟨rfl, ?_, ?_⟩
  · intro j hj
    interval_cases j
    exact ⟨upload_image_to_s3 "aid" "u0" "a.jpg" "h0" processed_c, rfl⟩
  · exact upload_stage_returns_after_first_error fail_second "aid"
      new_images_c 1 "boom" rfl (by
        intro j hj
        interval_cases j
        exact ⟨upload_image_to_s3 "aid" "u0" "a.jpg" "h0" processed_c, rfl⟩)

/-! ### C9: the existence check and store failures -/

/-- C9: `object_exists` maps every outcome of the underlying head request to
`Ok`, sending failures to `Ok(false)`; consequently a run whose manifest
existence check fails at the store proceeds exactly as a fresh album (no
prior manifest, hence an empty reuse index). -/
theorem object_exists_never_errors :
    (∀ r : Except String Unit, ∃ b, object_exists r = Except.ok b) ∧
    (∀ e : String, object_exists (Except.error e) = Except.ok false) ∧
    (∀ (env : PipelineEnv) (uploadFail : Nat → Option String)
        (fetch : Except String Json) (name album_id : String)
        (files : List FileEntry) (e : String),
      upload_execute env uploadFail (Except.error e) fetch name album_id
          files =
        run_upload_core env uploadFail none name album_id files) := by
  refine ⟨?_, fun e => rfl, fun env uploadFail fetch name album_id files e => rfl⟩
  intro r
  cases r with
  | error e => exact ⟨false, rfl⟩
  | ok a => exact ⟨true, rfl⟩

/-! ### C10: the original rendition is a byte-for-byte pass-through -/

/-- C10: a successfully processed file keeps its raw bytes, unmodified, as
the original rendition, and records the decoded pixel dimensions as
`width`/`height`. -/
theorem original_rendition_passthrough (decode : Bytes → Option (Nat × Nat))
    (encode : Nat × Nat → Bytes) (f : FileEntry) (pi : ProcessedImage)
    (h : process_image decode encode f = .ok pi) :
    pi.original = f.bytes ∧ decode f.bytes = some (pi.width, pi.height) := by
  unfold process_image at h
  split at h
  · exact Except.noConfusion h
  · rcases hd : decode f.bytes with _ | ⟨w, hgt⟩
    · rw [hd] at h; exact Except.noConfusion h
    · rw [hd] at h
      have := Except.ok.inj h
      subst this
      exact ⟨rfl, rfl⟩

/-- C10 witness: a concrete file processed with a concrete codec. -/
theorem original_rendition_passthrough_witness :
    process_image env_c.decode env_c.encode
        { path := "d/a.jpg", bytes := [1, 2] } =
      .ok { original := [1, 2], preview := [7], thumbnail := [7],
            width := 2, height := 3 } ∧
    (ProcessedImage.mk [1, 2] [7] [7] 2 3).original = [1, 2] ∧
    env_c.decode [1, 2] = some (2, 3) :=
  ⟨rfl, (original_rendition_passthrough env_c.decode env_c.encode
    { path := "d/a.jpg", bytes := [1, 2] } _ rfl).1,
   (original_rendition_passthrough env_c.decode env_c.encode
    { path := "d/a.jpg", bytes := [1, 2] } _ rfl).2⟩

/-! ### C6: manifest serialization round trip -/

theorem image_info_from_to_json (i : ImageInfo) :
    ImageInfo.from_json i.to_json = some i := by
  rcases i with ⟨iid, ofn, w, h, fh, tp, pp, op, tu, pu, ou⟩
  rcases tu <;> rcases pu <;> rcases ou <;> rfl

theorem parse_images_to_json (l : List ImageInfo) :
    parse_images (l.map ImageInfo.to_json) = some l := by
  induction l with
  | nil => rfl
  | cons x xs ih => simp [parse_images, image_info_from_to_json, ih]

/-- C6: parsing the serialization of any manifest value yields the manifest
back unchanged. -/
theorem manifest_json_round_trip (m : AlbumManifest) :
    AlbumManifest.from_json m.to_json = some m := by
  rcases m with ⟨mid, mname, mca, mimages⟩
  simp [AlbumManifest.from_json, AlbumManifest.to_json, Json.getField,
    Json.asStr, Json.asArr, parse_images_to_json, List.lookup]

/-! ### C5: order independence of the album identity -/

theorem perm_flatten_of_perm {α : Type} {l₁ l₂ : List (List α)}
    (h : l₁.Perm l₂) : l₁.flatten.Perm l₂.flatten := by
  induction h with
  | nil => exact List.Perm.refl _
  | cons x _ ih =>
    simpa only [List.flatten_cons] using ih.append_left x
  | swap x y l =>
    simp only [List.flatten_cons, ← List.append_assoc]
    exact (List.perm_append_comm).append_right l.flatten
  | trans _ _ ih1 ih2 => exact ih1.trans ih2

/-- Collection succeeds on a permutation of the supplied paths with a
permutation of the collected chunks. -/
theorem collect_chunks_perm (fs : Fs) {p q : List String} (hpq : p.Perm q) :
    ∀ c, collect_chunks fs p = .ok c →
      ∃ d, collect_chunks fs q = .ok d ∧ c.Perm d := by
  induction hpq with
  | nil =>
    intro c hc
    refine ⟨c, hc, List.Perm.refl c⟩
  | @cons x l₁ l₂ _ ih =>
    intro c hc
    simp only [collect_chunks] at hc ⊢
    rcases hx : collect_from fs x with e | chunk <;> rw [hx] at hc
    · exact Except.noConfusion hc
    · rcases hrest : collect_chunks fs l₁ with e | rest <;> rw [hrest] at hc
      · exact Except.noConfusion hc
      · obtain ⟨d, hd, hperm⟩ := ih rest hrest
        rw [hd]
        exact ⟨chunk :: d, rfl, (Except.ok.inj hc) ▸ hperm.cons chunk⟩
  | swap x y l =>
    intro c hc
    simp only [collect_chunks] at hc ⊢
    rcases hy : collect_from fs y with e | cy <;> rw [hy] at hc
    · exact Except.noConfusion hc
    rcases hx : collect_from fs x with e | cx <;> rw [hx] at hc
    · exact Except.noConfusion hc
    rcases hl : collect_chunks fs l with e | cl <;> rw [hl] at hc
    · exact Except.noConfusion hc
    exact ⟨cx :: cy :: cl, rfl, (Except.ok.inj hc) ▸ List.Perm.swap cx cy cl⟩
  | trans _ _ ih1 ih2 =>
    intro c hc
    obtain ⟨d, hd, hcd⟩ := ih1 c hc
    obtain ⟨e, he, hde⟩ := ih2 d hd
    exact ⟨e, he, hcd.trans hde⟩

theorem sort_paths_sorted (l : List String) :
    (sort_paths l).Sorted path_le :=
  List.sorted_insertionSort _ l

theorem sort_paths_perm (l : List String) : (sort_paths l).Perm l :=
  List.perm_insertionSort _ l

/-- Permutations sort identically. -/
theorem sort_paths_eq_of_perm {l₁ l₂ : List String} (h : l₁.Perm l₂) :
    sort_paths l₁ = sort_paths l₂ :=
  List.eq_of_perm_of_sorted
    ((sort_paths_perm l₁).trans (h.trans (sort_paths_perm l₂).symm))
    (sort_paths_sorted l₁) (sort_paths_sorted l₂)

/-- C5: supplying the same set of paths in any order yields the same
candidate list, hence the same album identity; the identity is the first 16
hex characters of the digest of the sorted path strings, each followed by a
newline separator. -/
theorem album_identity_order_independent (sha256hex : String → String)
    (fs : Fs) (p₁ p₂ : List String) (o₁ o₂ : List String)
    (hperm : p₁.Perm p₂)
    (h₁ : collect_image_paths fs p₁ = .ok o₁)
    (h₂ : collect_image_paths fs p₂ = .ok o₂) :
    compute_album_id sha256hex o₁ = compute_album_id sha256hex o₂ ∧
    o₁.Sorted path_le ∧
    compute_album_id sha256hex o₁ =
      (sha256hex (String.join (o₁.map (fun p => p ++ "\n")))).take 16 := by
  have key : o₁ = o₂ := by
    unfold collect_image_paths at h₁ h₂
    rcases hc₁ : collect_chunks fs p₁ with e | c₁ <;> rw [hc₁] at h₁
    · exact Except.noConfusion h₁
    rcases hc₂ : collect_chunks fs p₂ with e | c₂ <;> rw [hc₂] at h₂
    · exact Except.noConfusion h₂
    obtain ⟨d, hd, hcd⟩ := collect_chunks_perm fs hperm c₁ hc₁
    rw [hd] at hc₂
    have hdc : d = c₂ := Except.ok.inj hc₂
    subst hdc
    rw [← Except.ok.inj h₁, ← Except.ok.inj h₂]
    exact sort_paths_eq_of_perm (perm_flatten_of_perm hcd)
  subst key
  refine ⟨rfl, ?_, rfl⟩
  unfold collect_image_paths at h₁
  rcases hc₁ : collect_chunks fs p₁ with e | c₁ <;> rw [hc₁] at h₁
  · exact Except.noConfusion h₁
  · rw [← Except.ok.inj h₁]
    exact sort_paths_sorted _

/-- C5 witness: the same two files supplied in either order produce the
same collected list and the same album identity. -/
theorem album_identity_order_independent_witness :
    (["b.jpg", "a.jpg"] : List String).Perm ["a.jpg", "b.jpg"] ∧
    collect_image_paths [("b.jpg", FsNode.file), ("a.jpg", FsNode.file)]
        ["b.jpg", "a.jpg"] = .ok ["a.jpg", "b.jpg"] ∧
    collect_image_paths [("b.jpg", FsNode.file), ("a.jpg", FsNode.file)]
        ["a.jpg", "b.jpg"] = .ok ["a.jpg", "b.jpg"] ∧
    (compute_album_id (fun s => s) ["a.jpg", "b.jpg"] =
        compute_album_id (fun s => s) ["a.jpg", "b.jpg"] ∧
      (["a.jpg", "b.jpg"] : List String).Sorted path_le ∧
      compute_album_id (fun s => s) ["a.jpg", "b.jpg"] =
        ((fun s => s)
            (String.join ((["a.jpg", "b.jpg"] : List String).map
              (fun p => p ++ "\n")))).take 16) := by
  refine ⟨by decide, rfl, rfl, ?_⟩
  exact album_identity_order_independent (fun s => s)
    [("b.jpg", FsNode.file), ("a.jpg", FsNode.file)]
    ["b.jpg", "a.jpg"] ["a.jpg", "b.jpg"] _ _ (by decide) rfl rfl

/-! ### C8: unsupported extensions are silently skipped -/

theorem collect_from_ok (fs : Fs) (p : String)
    (hs : (fs.lookup p).isSome) :
    ∃ chunk, collect_from fs p = .ok chunk ∧
      ∀ q ∈ chunk, is_image_file q = true := by
  unfold collect_from
  rcases h : fs.lookup p with _ | node
  · rw [h] at hs; exact absurd hs (by simp)
  · cases node with
    | file =>
      by_cases hi : is_image_file p
      · exact ⟨[p], by rw [if_pos hi], by
          intro q hq
          rcases List.mem_singleton.1 hq with rfl
          exact hi⟩
      · exact ⟨[], by rw [if_neg hi], by intro q hq; exact absurd hq (by simp)⟩
    | dir walk =>
      refine ⟨walk.filter (fun q => is_image_file q), rfl, ?_⟩
      intro q hq
      exact List.of_mem_filter hq

theorem collect_chunks_ok (fs : Fs) :
    ∀ paths : List String, (∀ p ∈ paths, (fs.lookup p).isSome) →
      ∃ chunks, collect_chunks fs paths = .ok chunks ∧
        ∀ chunk ∈ chunks, ∀ q ∈ chunk, is_image_file q = true := by
  intro paths
  induction paths with
  | nil => exact fun _ => ⟨[], rfl, by intro c hc; exact absurd hc (by simp)⟩
  | cons p ps ih =>
    intro hex
    obtain ⟨chunk, hchunk, hmem⟩ := collect_from_ok fs p (hex p (by simp))
    obtain ⟨chunks, hchunks, hmems⟩ := ih (fun q hq => hex q (by simp [hq]))
    refine ⟨chunk :: chunks, ?_, ?_⟩
    · simp only [collect_chunks, hchunk, hchunks]
    · intro c hc
      rcases List.mem_cons.1 hc with rfl | hc
      · exact hmem
      · exact hmems c hc

/-- C8: when every supplied path exists, collection succeeds, every
collected candidate has a supported raster extension, and any file whose
extension is not supported is absent from the candidate list — skipped
silently rather than reported as an error. -/
theorem unsupported_files_silently_skipped (fs : Fs) (paths : List String)
    (hex : ∀ p ∈ paths, (fs.lookup p).isSome) :
    ∃ out, collect_image_paths fs paths = .ok out ∧
      (∀ q ∈ out, is_image_file q = true) ∧
      (∀ q, is_image_file q = false → q ∉ out) := by
  obtain ⟨chunks, hchunks, hmems⟩ := collect_chunks_ok fs paths hex
  refine ⟨sort_paths chunks.flatten, ?_, ?_, ?_⟩
  · simp only [collect_image_paths, hchunks]
  · intro q hq
    have hq' : q ∈ chunks.flatten := ((sort_paths_perm _).mem_iff).1 hq
    obtain ⟨chunk, hchunk, hqc⟩ := List.mem_flatten.1 hq'
    exact hmems chunk hchunk q hqc
  · intro q hqf hq
    have hq' : q ∈ chunks.flatten := ((sort_paths_perm _).mem_iff).1 hq
    obtain ⟨chunk, hchunk, hqc⟩ := List.mem_flatten.1 hq'
    rw [hmems chunk hchunk q hqc] at hqf
    exact Bool.noConfusion hqf

/-- C8 witness: a text file, a directory holding a PNG beside a JPEG, and a
plain JPEG: the unsupported files are skipped without error. -/
theorem unsupported_files_silently_skipped_witness :
    (∀ p ∈ (["a.txt", "d", "b.jpg"] : List String),
      (([("a.txt", FsNode.file), ("d", FsNode.dir ["d/x.jpg", "d/y.png"]),
          ("b.jpg", FsNode.file)] : Fs).lookup p).isSome) ∧
    (∃ out,
      collect_image_paths
          [("a.txt", FsNode.file), ("d", FsNode.dir ["d/x.jpg", "d/y.png"]),
            ("b.jpg", FsNode.file)] ["a.txt", "d", "b.jpg"] = .ok out ∧
      (∀ q ∈ out, is_image_file q = true) ∧
      (∀ q, is_image_file q = false → q ∉ out)) :=
  ⟨by decide,
   unsupported_files_silently_skipped
     [("a.txt", FsNode.file), ("d", FsNode.dir ["d/x.jpg", "d/y.png"]),
       ("b.jpg", FsNode.file)] ["a.txt", "d", "b.jpg"] (by decide)⟩

/-! ### C7: rendition dimension bounds -/

theorem round_le_nat {x : ℚ} {b : Nat} (hx : x ≤ (b : ℚ)) :
    round x ≤ (b : ℤ) := by
  rw [round_eq]
  have hmono : ⌊x + 1 / 2⌋ ≤ ⌊(b : ℚ) + 1 / 2⌋ := Int.floor_mono (by linarith)
  have hb : ⌊(b : ℚ) + 1 / 2⌋ = (b : ℤ) := by
    rw [add_comm, Int.floor_add_nat]
    norm_num
  rw [hb] at hmono
  exact hmono

/-- Dimension error of one rounded-and-clamped side: at most one pixel. -/
theorem clamp_round_err (x : ℚ) (hx : 0 ≤ x) :
    |((max 1 (round x).toNat : ℕ) : ℚ) - x| ≤ 1 := by
  by_cases hr : round x ≤ 0
  · have habs : |x - round x| ≤ 1 / 2 := abs_sub_round x
    have hx12 : x ≤ 1 := by
      have h1 : x - (round x : ℚ) ≤ 1 / 2 := (abs_le.1 habs).2
      have h2 : ((round x : ℤ) : ℚ) ≤ 0 := by exact_mod_cast hr
      linarith
    have htn : (round x).toNat = 0 := Int.toNat_of_nonpos hr
    rw [htn]
    norm_num
    rw [abs_le]
    constructor <;> linarith
  · push_neg at hr
    have h1 : (1 : ℤ) ≤ round x := hr
    have hmax : max 1 (round x).toNat = (round x).toNat := by
      have : 1 ≤ (round x).toNat := by omega
      omega
    rw [hmax]
    have htn : (((round x).toNat : ℕ) : ℚ) = ((round x : ℤ) : ℚ) := by
      exact_mod_cast congrArg Int.cast (Int.toNat_of_nonneg (by omega))
    rw [htn]
    calc |((round x : ℤ) : ℚ) - x| = |x - round x| := abs_sub_comm _ _
      _ ≤ 1 / 2 := abs_sub_round x
      _ ≤ 1 := by norm_num

theorem resize_dims_le (w h b : Nat) (hw : 0 < w) (hh : 0 < h)
    (hb : 1 ≤ b) : (resize_dims w h b).1 ≤ b ∧ (resize_dims w h b).2 ≤ b := by
  have hwq : (0 : ℚ) < (w : ℚ) := by exact_mod_cast hw
  have hhq : (0 : ℚ) < (h : ℚ) := by exact_mod_cast hh
  have hsw : min ((b : ℚ) / w) ((b : ℚ) / h) ≤ (b : ℚ) / w := min_le_left _ _
  have hsh : min ((b : ℚ) / w) ((b : ℚ) / h) ≤ (b : ℚ) / h := min_le_right _ _
  have hws : (w : ℚ) * min ((b : ℚ) / w) ((b : ℚ) / h) ≤ (b : ℚ) := by
    calc (w : ℚ) * min ((b : ℚ) / w) ((b : ℚ) / h) ≤ (w : ℚ) * ((b : ℚ) / w) :=
          mul_le_mul_of_nonneg_left hsw (le_of_lt hwq)
      _ = (b : ℚ) := by field_simp
  have hhs : (h : ℚ) * min ((b : ℚ) / w) ((b : ℚ) / h) ≤ (b : ℚ) := by
    calc (h : ℚ) * min ((b : ℚ) / w) ((b : ℚ) / h) ≤ (h : ℚ) * ((b : ℚ) / h) :=
          mul_le_mul_of_nonneg_left hsh (le_of_lt hhq)
      _ = (b : ℚ) := by field_simp
  constructor
  · have h1 : round ((w : ℚ) * min ((b : ℚ) / w) ((b : ℚ) / h)) ≤ (b : ℤ) :=
      round_le_nat hws
    simp only [resize_dims]
    omega
  · have h1 : round ((h : ℚ) * min ((b : ℚ) / w) ((b : ℚ) / h)) ≤ (b : ℤ) :=
      round_le_nat hhs
    simp only [resize_dims]
    omega

theorem resize_dims_aspect (w h b : Nat) (hw : 0 < w) (hh : 0 < h) :
    |((resize_dims w h b).1 : ℚ) * h - ((resize_dims w h b).2 : ℚ) * w| ≤
      (w : ℚ) + h := by
  have hwq : (0 : ℚ) < (w : ℚ) := by exact_mod_cast hw
  have hhq : (0 : ℚ) < (h : ℚ) := by exact_mod_cast hh
  have hs0 : 0 ≤ min ((b : ℚ) / w) ((b : ℚ) / h) :=
    le_min (by positivity) (by positivity)
  set s : ℚ := min ((b : ℚ) / w) ((b : ℚ) / h) with hs
  have he1 : |((max 1 (round ((w : ℚ) * s)).toNat : ℕ) : ℚ) - (w : ℚ) * s| ≤ 1 :=
    clamp_round_err _ (mul_nonneg (le_of_lt hwq) hs0)
  have he2 : |((max 1 (round ((h : ℚ) * s)).toNat : ℕ) : ℚ) - (h : ℚ) * s| ≤ 1 :=
    clamp_round_err _ (mul_nonneg (le_of_lt hhq) hs0)
  simp only [resize_dims, ← hs]
  set p1 : ℚ := ((max 1 (round ((w : ℚ) * s)).toNat : ℕ) : ℚ) with hp1
  set p2 : ℚ := ((max 1 (round ((h : ℚ) * s)).toNat : ℕ) : ℚ) with hp2
  have key : p1 * h - p2 * w =
      (p1 - (w : ℚ) * s) * h - (p2 - (h : ℚ) * s) * w := by ring
  calc |p1 * h - p2 * w| = |(p1 - (w : ℚ) * s) * h - (p2 - (h : ℚ) * s) * w| := by
        rw [key]
    _ ≤ |(p1 - (w : ℚ) * s) * h| + |(p2 - (h : ℚ) * s) * w| := abs_sub _ _
    _ = |p1 - (w : ℚ) * s| * h + |p2 - (h : ℚ) * s| * w := by
        rw [abs_mul, abs_mul, abs_of_nonneg (le_of_lt hhq),
          abs_of_nonneg (le_of_lt hwq)]
    _ ≤ 1 * h + 1 * w := by
        apply add_le_add
        · exact mul_le_mul_of_nonneg_right he1 (le_of_lt hhq)
        · exact mul_le_mul_of_nonneg_right he2 (le_of_lt hwq)
    _ = (h : ℚ) + w := by ring
    _ = (w : ℚ) + h := by ring

theorem create_resized_dims_le (w h b : Nat) (hw : 0 < w) (hh : 0 < h)
    (hb : 1 ≤ b) :
    (create_resized_dims w h b).1 ≤ b ∧ (create_resized_dims w h b).2 ≤ b := by
  unfold create_resized_dims
  split
  · exact resize_dims_le w h b hw hh hb
  · rename_i hcond
    push_neg at hcond
    exact ⟨hcond.1, hcond.2⟩

/-- C7: both renditions respect their dimension bound (2048 for the preview,
400 for the thumbnail), a source already within the bound is passed through
with identical pixel dimensions, and a resized rendition keeps the source's
aspect ratio up to the one-pixel rounding of each side. -/
theorem rendition_dims_bounded (w h : Nat) (hw : 0 < w) (hh : 0 < h) :
    ((create_resized_dims w h PREVIEW_SIZE).1 ≤ PREVIEW_SIZE ∧
     (create_resized_dims w h PREVIEW_SIZE).2 ≤ PREVIEW_SIZE) ∧
    ((create_resized_dims w h THUMBNAIL_SIZE).1 ≤ THUMBNAIL_SIZE ∧
     (create_resized_dims w h THUMBNAIL_SIZE).2 ≤ THUMBNAIL_SIZE) ∧
    (w ≤ PREVIEW_SIZE ∧ h ≤ PREVIEW_SIZE →
      create_resized_dims w h PREVIEW_SIZE = (w, h)) ∧
    (w ≤ THUMBNAIL_SIZE ∧ h ≤ THUMBNAIL_SIZE →
      create_resized_dims w h THUMBNAIL_SIZE = (w, h)) ∧
    (∀ b : Nat, w > b ∨ h > b →
      |((create_resized_dims w h b).1 : ℚ) * h -
        ((create_resized_dims w h b).2 : ℚ) * w| ≤ (w : ℚ) + h) := by
  refine ⟨create_resized_dims_le w h PREVIEW_SIZE hw hh (by norm_num [PREVIEW_SIZE]),
    create_resized_dims_le w h THUMBNAIL_SIZE hw hh (by norm_num [THUMBNAIL_SIZE]),
    ?_, ?_, ?_⟩
  · intro hle
    unfold create_resized_dims
    rw [if_neg]
    push_neg
    exact ⟨hle.1, hle.2⟩
  · intro hle
    unfold create_resized_dims
    rw [if_neg]
    push_neg
    exact ⟨hle.1, hle.2⟩
  · intro b hcond
    unfold create_resized_dims
    rw [if_pos hcond]
    exact resize_dims_aspect w h b hw hh

/-- C7 witness: the spec's 6000 by 4000 source scenario. -/
theorem rendition_dims_bounded_witness :
    0 < 6000 ∧ 0 < 4000 ∧
    (((create_resized_dims 6000 4000 PREVIEW_SIZE).1 ≤ PREVIEW_SIZE ∧
      (create_resized_dims 6000 4000 PREVIEW_SIZE).2 ≤ PREVIEW_SIZE) ∧
     ((create_resized_dims 6000 4000 THUMBNAIL_SIZE).1 ≤ THUMBNAIL_SIZE ∧
      (create_resized_dims 6000 4000 THUMBNAIL_SIZE).2 ≤ THUMBNAIL_SIZE) ∧
     (6000 ≤ PREVIEW_SIZE ∧ 4000 ≤ PREVIEW_SIZE →
       create_resized_dims 6000 4000 PREVIEW_SIZE = (6000, 4000)) ∧
     (6000 ≤ THUMBNAIL_SIZE ∧ 4000 ≤ THUMBNAIL_SIZE →
       create_resized_dims 6000 4000 THUMBNAIL_SIZE = (6000, 4000)) ∧
     (∀ b : Nat, 6000 > b ∨ 4000 > b →
       |((create_resized_dims 6000 4000 b).1 : ℚ) * 4000 -
         ((create_resized_dims 6000 4000 b).2 : ℚ) * 6000| ≤
           (6000 : ℚ) + 4000)) :=
  ⟨by decide, by decide,
   rendition_dims_bounded 6000 4000 (by decide) (by decide)⟩

/-! ### Reuse-index lemmas -/

theorem index_lookup_filter_ne (m : ReuseIndex) (k : String) :
    index_lookup (m.filter (fun kv => kv.1 ≠ k)) k = none := by
  induction m with
  | nil => rfl
  | cons kv rest ih =>
    obtain ⟨k1, v1⟩ := kv
    rw [List.filter_cons]
    by_cases hk : k1 = k
    · simp only [hk, ne_eq, not_true_eq_false, decide_False, Bool.false_eq_true,
        if_false]
      exact ih
    · simp only [ne_eq, hk, not_false_eq_true, decide_True, if_true]
      simp only [index_lookup, hk, if_false]
      exact ih

theorem index_lookup_insert_self (m : ReuseIndex) (k : String) (v : ImageInfo) :
    index_lookup (index_insert m k v) k = some v := by
  unfold index_insert
  have hn := index_lookup_filter_ne m k
  generalize (m.filter (fun kv => kv.1 ≠ k)) = l at hn
  induction l with
  | nil => simp [index_lookup]
  | cons kv rest ih =>
    obtain ⟨k1, v1⟩ := kv
    simp only [index_lookup, List.cons_append] at hn ⊢
    by_cases hk : k1 = k
    · rw [if_pos hk] at hn
      exact Option.noConfusion hn
    · rw [if_neg hk] at hn ⊢
      exact ih hn

theorem index_lookup_insert_other (m : ReuseIndex) (k : String)
    (v : ImageInfo) (key : String) (h : key ≠ k) :
    index_lookup (index_insert m k v) key = index_lookup m key := by
  unfold index_insert
  induction m with
  | nil =>
    simp only [List.filter_nil, List.nil_append, index_lookup]
    rw [if_neg (fun hkey => h hkey.symm)]
  | cons kv rest ih =>
    obtain ⟨k1, v1⟩ := kv
    rw [List.filter_cons]
    by_cases hk : k1 = k
    · simp only [hk, ne_eq, not_true_eq_false, decide_False, Bool.false_eq_true,
        if_false]
      rw [ih]
      simp only [index_lookup]
      rw [if_neg (fun hkey : k = key => h hkey.symm)]
    · simp only [ne_eq, hk, not_false_eq_true, decide_True, if_true]
      simp only [index_lookup, List.cons_append]
      by_cases hkey : k1 = key
      · rw [if_pos hkey, if_pos hkey]
      · rw [if_neg hkey, if_neg hkey]
        exact ih

theorem index_lookup_build_aux :
    ∀ (l : List ImageInfo) (acc : ReuseIndex) (k : String) (v : ImageInfo),
      index_lookup
          (l.foldl (fun m img => index_insert m img.file_hash img) acc) k =
        some v →
      index_lookup acc k = some v ∨ (v ∈ l ∧ v.file_hash = k) := by
  intro l
  induction l with
  | nil => intro acc k v h; exact .inl h
  | cons img rest ih =>
    intro acc k v h
    rw [List.foldl_cons] at h
    rcases ih (index_insert acc img.file_hash img) k v h with h1 | h2
    · by_cases hk : k = img.file_hash
      · rw [hk, index_lookup_insert_self] at h1
        have : img = v := Option.some.inj h1
        exact .inr ⟨this ▸ List.mem_cons_self img rest, by rw [← this, hk]⟩
      · rw [index_lookup_insert_other acc img.file_hash img k hk] at h1
        exact .inl h1
    · exact .inr ⟨List.mem_cons_of_mem img h2.1, h2.2⟩

theorem build_index_lookup_mem {l : List ImageInfo} {k : String}
    {v : ImageInfo} (h : index_lookup (build_index l) k = some v) :
    v ∈ l ∧ v.file_hash = k := by
  rcases index_lookup_build_aux l [] k v h with h1 | h2
  · exact Option.noConfusion h1
  · exact h2

theorem index_lookup_build_isSome_aux :
    ∀ (l : List ImageInfo) (acc : ReuseIndex) (k : String),
      ((∃ v ∈ l, v.file_hash = k) ∨ (index_lookup acc k).isSome) →
      (index_lookup
          (l.foldl (fun m img => index_insert m img.file_hash img) acc)
          k).isSome := by
  intro l
  induction l with
  | nil =>
    intro acc k h
    rcases h with ⟨v, hv, _⟩ | h
    · exact absurd hv (by simp)
    · exact h
  | cons img rest ih =>
    intro acc k h
    rw [List.foldl_cons]
    by_cases hk : k = img.file_hash
    · by_cases hrest : ∃ v ∈ rest, v.file_hash = k
      · exact ih _ k (.inl hrest)
      · refine ih _ k (.inr ?_)
        rw [hk, index_lookup_insert_self]
        rfl
    · rcases h with ⟨v, hv, hvh⟩ | h
      · rcases List.mem_cons.1 hv with rfl | hv'
        · exact absurd hvh.symm hk
        · exact ih _ k (.inl ⟨v, hv', hvh⟩)
      · refine ih _ k (.inr ?_)
        rw [index_lookup_insert_other acc img.file_hash img k hk]
        exact h

theorem build_index_lookup_isSome {l : List ImageInfo} {k : String}
    (h : ∃ v ∈ l, v.file_hash = k) :
    ∃ v', index_lookup (build_index l) k = some v' := by
  have := index_lookup_build_isSome_aux l [] k (.inl h)
  exact Option.isSome_iff_exists.1 this

/-! ### Processing-stage lemmas -/

theorem process_one_ok (env : PipelineEnv) (idx : ReuseIndex) (i : Nat)
    (f : FileEntry) (r : ProcessResult)
    (h : process_one env idx i f = .ok r) :
    (∃ info, index_lookup idx (env.fileHash f.bytes) = some info ∧
      r = .existing info) ∨
    (index_lookup idx (env.fileHash f.bytes) = none ∧
      ∃ p, process_image env.decode env.encode f = .ok p ∧
        r = .new (env.freshId i) (file_name f.path) (env.fileHash f.bytes) p) := by
  simp only [process_one] at h
  rcases hl : index_lookup idx (env.fileHash f.bytes) with _ | info <;>
    rw [hl] at h
  · rcases hp : process_image env.decode env.encode f with e | p <;>
      rw [hp] at h
    · exact Except.noConfusion h
    · exact .inr ⟨rfl, p, rfl, (Except.ok.inj h).symm⟩
  · exact .inl ⟨info, rfl, (Except.ok.inj h).symm⟩

theorem process_all_mem (env : PipelineEnv) (idx : ReuseIndex) :
    ∀ (i₀ : Nat) (files : List FileEntry) (results : List ProcessResult)
      (r : ProcessResult),
      process_all env idx i₀ files = .ok results → r ∈ results →
      ∃ f ∈ files,
        (∃ info, index_lookup idx (env.fileHash f.bytes) = some info ∧
          r = .existing info) ∨
        (∃ i, i₀ ≤ i ∧ index_lookup idx (env.fileHash f.bytes) = none ∧
          ∃ p, r = .new (env.freshId i) (file_name f.path)
            (env.fileHash f.bytes) p) := by
  intro i₀ files
  induction files generalizing i₀ with
  | nil =>
    intro results r h hr
    have : results = [] := (Except.ok.inj h).symm
    subst this
    exact absurd hr (by simp)
  | cons f fs ih =>
    intro results r h hr
    simp only [process_all] at h
    rcases h1 : process_one env idx i₀ f with e | r1 <;> rw [h1] at h
    · exact Except.noConfusion h
    rcases h2 : process_all env idx (i₀ + 1) fs with e | rs <;> rw [h2] at h
    · exact Except.noConfusion h
    have hres : results = r1 :: rs := (Except.ok.inj h).symm
    subst hres
    rcases List.mem_cons.1 hr with rfl | hr'
    · rcases process_one_ok env idx i₀ f r h1 with
        ⟨info, hl, hre⟩ | ⟨hl, p, _, hre⟩
      · exact ⟨f, by simp, .inl ⟨info, hl, hre⟩⟩
      · exact ⟨f, by simp, .inr ⟨i₀, le_refl _, hl, p, hre⟩⟩
    · obtain ⟨g, hg, hcase⟩ := ih (i₀ + 1) rs r h2 hr'
      refine ⟨g, by simp [hg], ?_⟩
      rcases hcase with hcase | ⟨i, hi, rest⟩
      · exact .inl hcase
      · exact .inr ⟨i, by omega, rest⟩

theorem process_all_mem_forward (env : PipelineEnv) (idx : ReuseIndex) :
    ∀ (i₀ : Nat) (files : List FileEntry) (results : List ProcessResult)
      (f : FileEntry),
      process_all env idx i₀ files = .ok results → f ∈ files →
      (∃ info, index_lookup idx (env.fileHash f.bytes) = some info ∧
        ProcessResult.existing info ∈ results) ∨
      (∃ i p, ProcessResult.new (env.freshId i) (file_name f.path)
        (env.fileHash f.bytes) p ∈ results) := by
  intro i₀ files
  induction files generalizing i₀ with
  | nil => intro results f _ hf; exact absurd hf (by simp)
  | cons g gs ih =>
    intro results f h hf
    simp only [process_all] at h
    rcases h1 : process_one env idx i₀ g with e | r1 <;> rw [h1] at h
    · exact Except.noConfusion h
    rcases h2 : process_all env idx (i₀ + 1) gs with e | rs <;> rw [h2] at h
    · exact Except.noConfusion h
    have hres : results = r1 :: rs := (Except.ok.inj h).symm
    subst hres
    rcases List.mem_cons.1 hf with rfl | hf'
    · rcases process_one_ok env idx i₀ f r1 h1 with
        ⟨info, hl, hre⟩ | ⟨hl, p, _, hre⟩
      · exact .inl ⟨info, hl, by rw [← hre]; exact List.mem_cons_self _ _⟩
      · exact .inr ⟨i₀, p, by rw [← hre]; exact List.mem_cons_self _ _⟩
    · rcases ih (i₀ + 1) rs f h2 hf' with ⟨info, hl, hmem⟩ | ⟨i, p, hmem⟩
      · exact .inl ⟨info, hl, List.mem_cons_of_mem _ hmem⟩
      · exact .inr ⟨i, p, List.mem_cons_of_mem _ hmem⟩

/-! ### Separation and upload-stage lemmas -/

theorem split_results_mem_existing :
    ∀ (results : List ProcessResult) (info : ImageInfo),
      ProcessResult.existing info ∈ results →
      info ∈ (split_results results).1 := by
  intro results
  induction results with
  | nil => intro info h; exact absurd h (by simp)
  | cons r rs ih =>
    intro info h
    rcases hsp : split_results rs with ⟨re, ne⟩
    rcases List.mem_cons.1 h with heq | h'
    · simp only [split_results, hsp, ← heq]
      exact List.mem_cons_self _ _
    · have hmem := ih info h'
      rw [hsp] at hmem
      cases r with
      | existing info2 =>
        simp only [split_results, hsp]
        exact List.mem_cons_of_mem _ hmem
      | new a b c d =>
        simp only [split_results, hsp]
        exact hmem

theorem split_results_mem_new :
    ∀ (results : List ProcessResult) (image_id filename file_hash : String)
      (p : ProcessedImage),
      ProcessResult.new image_id filename file_hash p ∈ results →
      (image_id, filename, file_hash, p) ∈ (split_results results).2 := by
  intro results
  induction results with
  | nil => intro a b c d h; exact absurd h (by simp)
  | cons r rs ih =>
    intro a b c d h
    rcases hsp : split_results rs with ⟨re, ne⟩
    rcases List.mem_cons.1 h with heq | h'
    · simp only [split_results, hsp, ← heq]
      exact List.mem_cons_self _ _
    · have hmem := ih a b c d h'
      rw [hsp] at hmem
      cases r with
      | existing info2 =>
        simp only [split_results, hsp]
        exact hmem
      | new a2 b2 c2 d2 =>
        simp only [split_results, hsp]
        exact List.mem_cons_of_mem _ hmem

theorem await_upload_ok (uploadFail : Nat → Option String) (album_id : String) :
    ∀ (j : Nat) (new_images : List (String × String × String × ProcessedImage))
      (uploaded : List ImageInfo),
      await_all (upload_results uploadFail album_id j new_images) =
        .ok uploaded →
      uploaded = new_images.map
        (fun t => upload_image_to_s3 album_id t.1 t.2.1 t.2.2.1 t.2.2.2) := by
  intro j new_images
  induction new_images generalizing j with
  | nil =>
    intro uploaded h
    have : ([] : List ImageInfo) = uploaded := Except.ok.inj h
    rw [← this]
    rfl
  | cons t ts ih =>
    intro uploaded h
    obtain ⟨image_id, filename, file_hash, processed⟩ := t
    simp only [upload_results] at h
    rcases hf : uploadFail j with _ | e <;> rw [hf] at h
    · simp only [await_all] at h
      rcases hr : await_all (upload_results uploadFail album_id (j + 1) ts)
        with e | us <;> rw [hr] at h
      · exact Except.noConfusion h
      · have : upload_image_to_s3 album_id image_id filename file_hash
            processed :: us = uploaded := Except.ok.inj h
        rw [← this, ih (j + 1) us hr]
        rfl
    · simp only [await_all] at h
      exact Except.noConfusion h

/-! ### C3: reused files skip the transform and the upload -/

/-- C3: a candidate whose content hash is found in the reuse index is
emitted as a Reused result carrying the stored `ImageInfo` unchanged, and
the classification is independent of the transform, the id supply and the
candidate's position (no transform is consulted and no fresh id is drawn);
in particular after any successful run over a file, a second run over the
same unchanged bytes (same digest function) finds the hash in the index
rebuilt from the published manifest and classifies the file as Reused. -/
theorem reused_files_skip_processing (env env₂ : PipelineEnv) (f : FileEntry)
    (hsame : env₂.fileHash f.bytes = env.fileHash f.bytes) :
    (∀ (index : ReuseIndex) (i i₂ : Nat) (info : ImageInfo),
      index_lookup index (env.fileHash f.bytes) = some info →
      process_one env index i f = .ok (.existing info) ∧
      process_one env₂ index i₂ f = .ok (.existing info)) ∧
    (∀ (uploadFail : Nat → Option String) (prior : Option AlbumManifest)
        (name album_id : String) (files : List FileEntry)
        (m : AlbumManifest) (i₂ : Nat),
      run_upload_core env uploadFail prior name album_id files = .ok m →
      f ∈ files →
      ∃ info', index_lookup (build_index m.images)
          (env.fileHash f.bytes) = some info' ∧
        process_one env₂ (build_index m.images) i₂ f =
          .ok (.existing info')) := by
  constructor
  · intro index i i₂ info hlook
    constructor
    · simp only [process_one, hlook]
    · simp only [process_one, hsame, hlook]
  · intro uploadFail prior name album_id files m i₂ hrun hf
    obtain ⟨results, uploaded, hproc, hup, himg, _⟩ :=
      run_upload_core_ok env uploadFail prior name album_id files m hrun
    have hexists : ∃ v ∈ m.images, v.file_hash = env.fileHash f.bytes := by
      rcases process_all_mem_forward env _ 0 files results f hproc hf with
        ⟨info, hl, hmem⟩ | ⟨i, p, hmem⟩
      · refine ⟨info, ?_, (build_index_lookup_mem hl).2⟩
        rw [himg]
        exact List.mem_append_left _ (split_results_mem_existing _ _ hmem)
      · refine ⟨upload_image_to_s3 album_id (env.freshId i)
          (file_name f.path) (env.fileHash f.bytes) p, ?_, rfl⟩
        rw [himg]
        refine List.mem_append_right _ ?_
        rw [await_upload_ok uploadFail album_id 0 _ uploaded hup]
        exact List.mem_map_of_mem _ (split_results_mem_new _ _ _ _ _ hmem)
    obtain ⟨info', hl'⟩ := build_index_lookup_isSome hexists
    refine ⟨info', hl', ?_⟩
    simp only [process_one, hsame, hl']

/-- C3 witness: a file whose hash sits in a concrete one-entry index, and a
concrete resumed run in which the same file is classified Reused again. -/
theorem reused_files_skip_processing_witness :
    env_c.fileHash ([1] : Bytes) = env_c.fileHash ([1] : Bytes) ∧
    ((∀ (index : ReuseIndex) (i i₂ : Nat) (info : ImageInfo),
      index_lookup index
          (env_c.fileHash (FileEntry.mk "d/a.jpg" [1]).bytes) = some info →
      process_one env_c index i (FileEntry.mk "d/a.jpg" [1]) =
        .ok (.existing info) ∧
      process_one env_c index i₂ (FileEntry.mk "d/a.jpg" [1]) =
        .ok (.existing info)) ∧
    (∀ (uploadFail : Nat → Option String) (prior : Option AlbumManifest)
        (name album_id : String) (files : List FileEntry)
        (m : AlbumManifest) (i₂ : Nat),
      run_upload_core env_c uploadFail prior name album_id files = .ok m →
      FileEntry.mk "d/a.jpg" [1] ∈ files →
      ∃ info', index_lookup (build_index m.images)
          (env_c.fileHash (FileEntry.mk "d/a.jpg" [1]).bytes) = some info' ∧
        process_one env_c (build_index m.images) i₂
          (FileEntry.mk "d/a.jpg" [1]) = .ok (.existing info'))) :=
  ⟨rfl, reused_files_skip_processing env_c env_c (FileEntry.mk "d/a.jpg" [1])
    rfl⟩

/-! ### C4: distinctness of the published image ids -/

/-- The id a process result contributes to the manifest. -/
def result_id : ProcessResult → String
  | .existing info => info.id
  | .new image_id _ _ _ => image_id

theorem process_all_result_ids_nodup (env : PipelineEnv) (idx : ReuseIndex)
    (Hidx2 : ∀ k₁ v₁ k₂ v₂, index_lookup idx k₁ = some v₁ →
      index_lookup idx k₂ = some v₂ → v₁.id = v₂.id → k₁ = k₂)
    (Hfresh1 : ∀ i j, env.freshId i = env.freshId j → i = j)
    (Hfresh2 : ∀ i k v, index_lookup idx k = some v → env.freshId i ≠ v.id) :
    ∀ (i₀ : Nat) (files : List FileEntry) (results : List ProcessResult),
      process_all env idx i₀ files = .ok results →
      files.Pairwise (fun f g =>
        env.fileHash f.bytes = env.fileHash g.bytes →
        index_lookup idx (env.fileHash f.bytes) = none) →
      (results.map result_id).Nodup := by
  intro i₀ files
  induction files generalizing i₀ with
  | nil =>
    intro results h _
    have : results = [] := (Except.ok.inj h).symm
    subst this
    simp
  | cons f fs ih =>
    intro results h hpair
    simp only [process_all] at h
    rcases h1 : process_one env idx i₀ f with e | r1 <;> rw [h1] at h
    · exact Except.noConfusion h
    rcases h2 : process_all env idx (i₀ + 1) fs with e | rs <;> rw [h2] at h
    · exact Except.noConfusion h
    have hres : results = r1 :: rs := (Except.ok.inj h).symm
    subst hres
    rw [List.map_cons, List.nodup_cons]
    have hpair' := List.pairwise_cons.1 hpair
    refine ⟨?_, ih (i₀ + 1) rs h2 hpair'.2⟩
    intro hmem
    obtain ⟨r', hr', hid⟩ := List.mem_map.1 hmem
    obtain ⟨g, hg, hcase⟩ := process_all_mem env idx (i₀ + 1) fs rs r' h2 hr'
    rcases process_one_ok env idx i₀ f r1 h1 with
      ⟨info, hl, hre⟩ | ⟨hl, p, _, hre⟩
    · subst hre
      rcases hcase with ⟨info', hl', hre'⟩ | ⟨i, _, _, p', hre'⟩
      · subst hre'
        have hk : env.fileHash g.bytes = env.fileHash f.bytes :=
          Hidx2 _ _ _ _ hl' hl (by simpa [result_id] using hid)
        have hnone := hpair'.1 g hg hk.symm
        rw [hnone] at hl
        exact Option.noConfusion hl
      · subst hre'
        exact Hfresh2 i _ info hl (by simpa [result_id] using hid)
    · subst hre
      rcases hcase with ⟨info', hl', hre'⟩ | ⟨i, hi, _, p', hre'⟩
      · subst hre'
        exact Hfresh2 i₀ _ info' hl'
          (by simpa [result_id] using hid.symm)
      · subst hre'
        have heq : env.freshId i = env.freshId i₀ := by
          simpa [result_id] using hid
        have := Hfresh1 _ _ heq
        omega

theorem split_ids_perm (results : List ProcessResult) :
    ((split_results results).1.map ImageInfo.id ++
      (split_results results).2.map (fun t => t.1)).Perm
      (results.map result_id) := by
  induction results with
  | nil => exact List.Perm.refl _
  | cons r rs ih =>
    rcases hsp : split_results rs with ⟨re, ne⟩
    rw [hsp] at ih
    cases r with
    | existing info =>
      simp only [split_results, hsp, List.map_cons, List.cons_append,
        result_id]
      exact ih.cons info.id
    | new a b c d =>
      simp only [split_results, hsp, List.map_cons, result_id]
      exact List.perm_middle.trans (ih.cons a)

/-- C4 counterexample: with a prior manifest holding one entry and two
candidate files of identical content (same hash), both candidates are
classified Reused carrying the same stored entry, and the published
manifest's `images` contains the same `id` twice. -/
theorem published_ids_can_collide :
    run_upload_core env_c no_fail (some prior_manifest_c) "n" "aid"
        [{ path := "d/a.jpg", bytes := [1] },
         { path := "d/b.jpg", bytes := [1] }] =
      .ok { id := "aid", name := "n",
            created_at := "2025-06-01T00:00:00+00:00",
            images := [info_reused, info_reused] } ∧
    ¬ ((([info_reused, info_reused] : List ImageInfo).map
      ImageInfo.id).Nodup) :=
  ⟨rfl, by decide⟩

/-- C4 amended: the published `images` have pairwise-distinct ids provided
the prior manifest's entries already had pairwise-distinct ids, no two
candidates share a content hash that is present in the reuse index, and the
freshly drawn UUIDs neither repeat nor collide with a stored id. -/
theorem published_ids_nodup (env : PipelineEnv)
    (uploadFail : Nat → Option String) (prior : Option AlbumManifest)
    (name album_id : String) (files : List FileEntry) (m : AlbumManifest)
    (hrun : run_upload_core env uploadFail prior name album_id files = .ok m)
    (hprior : ((prior_images prior).map ImageInfo.id).Nodup)
    (hpair : files.Pairwise (fun f g =>
      env.fileHash f.bytes = env.fileHash g.bytes →
      index_lookup (build_index (prior_images prior))
        (env.fileHash f.bytes) = none))
    (hfresh1 : ∀ i j, env.freshId i = env.freshId j → i = j)
    (hfresh2 : ∀ i img, img ∈ prior_images prior → env.freshId i ≠ img.id) :
    (m.images.map ImageInfo.id).Nodup := by
  obtain ⟨results, uploaded, hproc, hup, himg, _⟩ :=
    run_upload_core_ok env uploadFail prior name album_id files m hrun
  have Hidx2 : ∀ k₁ v₁ k₂ v₂,
      index_lookup (build_index (prior_images prior)) k₁ = some v₁ →
      index_lookup (build_index (prior_images prior)) k₂ = some v₂ →
      v₁.id = v₂.id → k₁ = k₂ := by
    intro k₁ v₁ k₂ v₂ h₁ h₂ hid
    obtain ⟨hm₁, hh₁⟩ := build_index_lookup_mem h₁
    obtain ⟨hm₂, hh₂⟩ := build_index_lookup_mem h₂
    have hv : v₁ = v₂ := List.inj_on_of_nodup_map hprior hm₁ hm₂ hid
    rw [← hh₁, ← hh₂, hv]
  have Hfresh2' : ∀ i k v,
      index_lookup (build_index (prior_images prior)) k = some v →
      env.freshId i ≠ v.id := by
    intro i k v h
    exact hfresh2 i v (build_index_lookup_mem h).1
  have hnodup := process_all_result_ids_nodup env _ Hidx2 hfresh1 Hfresh2'
    0 files results hproc hpair
  have hupmap := await_upload_ok uploadFail album_id 0 _ uploaded hup
  have hids : m.images.map ImageInfo.id =
      (split_results results).1.map ImageInfo.id ++
      (split_results results).2.map (fun t => t.1) := by
    rw [himg, List.map_append, hupmap, List.map_map]
    congr 1
  rw [hids]
  exact ((split_ids_perm results).nodup_iff).2 hnodup

/-- C4 amended, witness: a concrete resumed run with one reused and one new
candidate publishes two distinct ids. -/
theorem published_ids_nodup_witness :
    run_upload_core env_c no_fail (some prior_manifest_c) "n" "aid"
        [{ path := "d/a.jpg", bytes := [1] },
         { path := "d/c.jpg", bytes := [2] }] =
      .ok { id := "aid", name := "n",
            created_at := "2025-06-01T00:00:00+00:00",
            images := [info_reused,
              ImageInfo.new "c.jpg" 2 3 "[2]" "aid" "uu"] } ∧
    (((prior_images (some prior_manifest_c)).map ImageInfo.id).Nodup ∧
      (((AlbumManifest.mk "aid" "n" "2025-06-01T00:00:00+00:00"
        [info_reused, ImageInfo.new "c.jpg" 2 3 "[2]" "aid" "uu"]).images.map
          ImageInfo.id).Nodup)) := by
  refine ⟨rfl, by decide, ?_⟩
  refine published_ids_nodup env_c no_fail (some prior_manifest_c) "n" "aid"
    [{ path := "d/a.jpg", bytes := [1] },
     { path := "d/c.jpg", bytes := [2] }] _ rfl (by decide) (by decide)
    ?_ ?_
  · intro i j h
    have hlen := congrArg (fun s : String => s.data.length) h
    simp only [env_c, List.length_replicate] at hlen
    omega
  · intro i img hmem h
    have himg : img = info_reused := by
      simpa [prior_images, prior_manifest_c] using hmem
    subst himg
    have hdata := congrArg String.data h
    simp only [env_c, info_reused] at hdata
    rw [List.replicate_succ] at hdata
    have hhead : ('u' :: List.replicate i 'u').head? =
        ("old-id" : String).data.head? := by rw [hdata]
    have : some 'u' = some 'o' := hhead
    exact Char.noConfusion (Option.some.inj this) (by decide)

end Gallery
